import Mathlib

/-!
Verification of the eink-image pixel pipeline (src/src/main.rs).

The pipeline operates on rectangular single-channel 8-bit luminance buffers.
We embed the buffers as `Image` (width, height, row-major `List ℕ` of samples),
Rust's saturating `as u8` cast and `f32::round` as explicit functions, and the
transcendental `f32::powf` as an uninterpreted function parameter.  Stateful
loops (Floyd–Steinberg dithering) become folds over `List.range` with explicit
state passing; their claims are weight/bookkeeping properties, insensitive to
the arithmetic model, and use exact rational error values.  The contrast
stage's claims are sensitive to `f32` rounding, so that stage is embedded
bit-exactly: a finite `f32` value is a dyadic pair `(m, e)` with value
`m * 2^e`, and every operation rounds to 24 significand bits, to nearest,
ties to even, exactly as IEEE-754 binary32 does (exponents are unbounded,
which agrees with binary32 wherever no overflow/underflow occurs; the
contrast chain on u8 samples stays far inside that range).
-/

namespace EinkImage

/-- Rust saturating cast `f32 → u8` (`as u8`): truncation toward zero, values
below 0 map to 0 and values above 255 map to 255.  On the nonnegative
rationals that arise here truncation toward zero is `Int.floor`. -/
def f32ToU8 (q : ℚ) : ℕ := min 255 (Int.toNat ⌊q⌋)

/-- Rust `f32::round`: round half away from zero. -/
def f32Round (q : ℚ) : ℤ := if 0 ≤ q then ⌊q + 1/2⌋ else ⌈q - 1/2⌉

/-- Rust `.round() as u8`: round half away from zero, then saturate to [0,255]. -/
def roundToU8 (q : ℚ) : ℕ := min 255 (Int.toNat (f32Round q))

/-- Rust `f32::clamp(lo, hi)` on rationals (for `lo ≤ hi`). -/
def clampQ (lo hi q : ℚ) : ℚ := max lo (min hi q)

/-- A single-channel 8-bit luminance buffer: `ImageBuffer<Luma<u8>, Vec<u8>>`.
Samples are stored row-major; sample `(x, y)` lives at index `y * width + x`. -/
structure Image where
  width : ℕ
  height : ℕ
  data : List ℕ
deriving DecidableEq

/-- `get_pixel(x, y)[0]`: row-major read (out-of-range reads default to 0,
which never happens on well-formed buffers). -/
def Image.getPixel (img : Image) (x y : ℕ) : ℕ :=
  img.data.getD (y * img.width + x) 0

/-- Well-formedness of the embedding of an `ImageBuffer<Luma<u8>, _>`:
the data vector has exactly `width * height` entries and every sample fits
in a `u8`. -/
def Image.wf (img : Image) : Prop :=
  img.data.length = img.width * img.height ∧ ∀ p ∈ img.data, p ≤ 255

instance (img : Image) : Decidable img.wf := by
  unfold Image.wf; infer_instance

/-! ### Bit-exact IEEE-754 binary32 model (for the contrast stage)

A finite `f32` is a dyadic pair `(m, e) : ℤ × ℤ` of value `m * 2^e`.
Operations compute the exact result and round it to 24 significand bits,
round-to-nearest, ties-to-even — the binary32 rounding of every Rust `f32`
arithmetic operation.  Exponents are unbounded; this agrees with binary32
wherever no overflow/underflow occurs, which covers the contrast chain on
u8 samples with any finite contrast level. -/

/-- Bit length of a natural number (0 for 0), fuel-based so that the kernel
can evaluate it. -/
def bitLenAux : ℕ → ℕ → ℕ
  | 0, _ => 0
  | fuel + 1, n => if n = 0 then 0 else bitLenAux fuel (n / 2) + 1

/-- `bitLen n` is the least `b` with `n < 2^b`. -/
def bitLen (n : ℕ) : ℕ := bitLenAux n n

/-- Drop the low `k` bits of `n`, rounding to nearest with ties to even. -/
def rne24Core (n k : ℕ) : ℕ :=
  let q := n / 2 ^ k
  let r := n % 2 ^ k
  let half := 2 ^ (k - 1)
  if half < r ∨ (r = half ∧ q % 2 = 1) then q + 1 else q

/-- Round the dyadic value `m * 2^e` to 24 significand bits, to nearest,
ties to even (the IEEE-754 binary32 rounding of an exactly-known result). -/
def rne24 (m : ℤ) (e : ℤ) : ℤ × ℤ :=
  let n := m.natAbs
  let b := bitLen n
  if b ≤ 24 then (m, e)
  else
    let k := b - 24
    let q2 := rne24Core n k
    (if m < 0 then -(q2 : ℤ) else (q2 : ℤ), e + k)

/-- Correctly rounded binary32 division `(a / b) * 2^eo` for naturals
(used for `pixel[0] as f32 / 255.0`): compute 48 extra quotient bits and
decide the rounding direction from the exact remainder. -/
def rneDiv (a b : ℕ) (eo : ℤ) : ℤ × ℤ :=
  let k : ℕ := 48
  let q := a * 2 ^ k / b
  let r := a * 2 ^ k % b
  let L := bitLen q
  if L ≤ 24 then ((q : ℤ), eo - k)
  else
    let d := L - 24
    let qh := q / 2 ^ d
    let ql := q % 2 ^ d
    let half := 2 ^ (d - 1)
    let up := b * half < b * ql + r ∨ (b * ql + r = b * half ∧ qh % 2 = 1)
    ((if up then qh + 1 else qh : ℕ), eo - k + d)

/-- binary32 addition: exact aligned sum, then rounding. -/
def ffAdd (x y : ℤ × ℤ) : ℤ × ℤ :=
  let e := min x.2 y.2
  rne24 (x.1 * 2 ^ (x.2 - e).toNat + y.1 * 2 ^ (y.2 - e).toNat) e

/-- binary32 subtraction. -/
def ffSub (x y : ℤ × ℤ) : ℤ × ℤ := ffAdd x (-y.1, y.2)

/-- binary32 multiplication: exact product, then rounding. -/
def ffMul (x y : ℤ × ℤ) : ℤ × ℤ := rne24 (x.1 * y.1) (x.2 + y.2)

/-- The comparison `self > 1.0` on a dyadic `f32` value. -/
def ffGtOne (x : ℤ × ℤ) : Bool :=
  if 0 ≤ x.2 then decide (1 < x.1 * 2 ^ x.2.toNat)
  else decide ((2 ^ (-x.2).toNat : ℤ) < x.1)

/-- Rust `f32::clamp(0.0, 1.0)`: if `self < 0.0` then `0.0`, else if
`self > 1.0` then `1.0`, else `self`. -/
def ffClamp01 (x : ℤ × ℤ) : ℤ × ℤ :=
  if x.1 < 0 then (0, 0) else if ffGtOne x then (1, 0) else x

/-- Rust `as u8` on a dyadic `f32` value: truncate toward zero and saturate
to `[0, 255]`. -/
def ffToU8 (x : ℤ × ℤ) : ℕ :=
  if x.1 ≤ 0 then 0
  else min 255 (if 0 ≤ x.2 then x.1.toNat * 2 ^ x.2.toNat else x.1.toNat / 2 ^ (-x.2).toNat)

/-- The `f32` constant `0.5`. -/
def ffHalf : ℤ × ℤ := (1, -1)

/-- The `f32` constant `255.0`. -/
def ff255 : ℤ × ℤ := (255, 0)

/-- The `f32` constant `1.0`. -/
def ffOne : ℤ × ℤ := (1, 0)

/-- The exact rational value of a dyadic `f32`. -/
def ffVal (x : ℤ × ℤ) : ℚ := (x.1 : ℚ) * (2 : ℚ) ^ x.2

/-- The per-pixel body of `enhance_contrast` (src/src/main.rs lines 180-184)
in bit-exact binary32 arithmetic: `luminance = pixel[0] as f32 / 255.0`,
`enhanced = ((luminance - 0.5) * contrast_level + 0.5).clamp(0.0, 1.0)`,
`new_value = (enhanced * 255.0) as u8`. -/
def contrast_pixel (contrast_level : ℤ × ℤ) (p : ℕ) : ℕ :=
  let luminance := rneDiv p 255 0
  let enhanced := ffClamp01 (ffAdd (ffMul (ffSub luminance ffHalf) contrast_level) ffHalf)
  ffToU8 (ffMul enhanced ff255)

/-- `enhance_contrast` (src/src/main.rs lines 173-188): apply the binary32
per-pixel remap at every pixel; writing each pixel of a fresh buffer in
raster order is a map over the data.  The contrast level is a finite `f32`
value given as a dyadic pair. -/
def enhance_contrast (img : Image) (contrast_level : ℤ × ℤ) : Image :=
  { width := img.width, height := img.height,
    data := img.data.map (contrast_pixel contrast_level) }

/-- The 256-entry gamma lookup table (src/src/main.rs lines 197-203):
entry `i` is `((i / 255).powf(1 / gamma) * 255).round() as u8`.
`powf` is an uninterpreted parameter standing for `f32::powf`. -/
def gamma_lut (powf : ℚ → ℚ → ℚ) (gamma : ℚ) : List ℕ :=
  (List.range 256).map (fun (i : ℕ) =>
    let normalized : ℚ := (i : ℚ) / 255
    let corrected := powf normalized (1 / gamma)
    roundToU8 (corrected * 255))

/-- `apply_gamma_correction` (src/src/main.rs lines 190-211): build the LUT
once, then map each pixel through it by direct indexing
(`gamma_lut[pixel[0] as usize]`; `getD _ 0` models `Vec` indexing, in range
for every `u8` sample). -/
def apply_gamma_correction (powf : ℚ → ℚ → ℚ) (img : Image) (gamma : ℚ) : Image :=
  { width := img.width, height := img.height,
    data := img.data.map (fun p => (gamma_lut powf gamma).getD p 0) }

/-- `apply_simple_threshold` (src/src/main.rs lines 213-226): each sample
becomes 255 if `pixel[0] >= threshold`, else 0. -/
def apply_simple_threshold (img : Image) (threshold : ℕ) : Image :=
  { width := img.width, height := img.height,
    data := img.data.map (fun p => if threshold ≤ p then 255 else 0) }

/-- `error_buffer[y][x]` read (out-of-range reads default to 0). -/
def ebGet (eb : List (List ℚ)) (y x : ℕ) : ℚ := (eb.getD y []).getD x 0

/-- `error_buffer[y][x] += v`. -/
def ebAdd (eb : List (List ℚ)) (y x : ℕ) (v : ℚ) : List (List ℚ) :=
  eb.set y ((eb.getD y []).set x (ebGet eb y x + v))

/-- The mutable state of the dithering loop: the `result` pixel buffer and
the `error_buffer` grid. -/
structure FSState where
  result : List ℕ
  eb : List (List ℚ)

/-- `old_value` at `(x, y)` (src/src/main.rs line 240): the pixel read from
the `result` buffer plus the accumulated error-buffer entry. -/
def fsEffective (width : ℕ) (st : FSState) (y x : ℕ) : ℚ :=
  (st.result.getD (y * width + x) 0 : ℚ) + ebGet st.eb y x

/-- `new_value` at `(x, y)` (src/src/main.rs line 241): 0 if
`old_value < threshold as f32`, else 255. -/
def fsNewValue (width threshold : ℕ) (st : FSState) (y x : ℕ) : ℕ :=
  if fsEffective width st y x < (threshold : ℚ) then 0 else 255

/-- `error` at `(x, y)` (src/src/main.rs line 242):
`(old_value - new_value as f32) * diffusion_amount`. -/
def fsError (width : ℕ) (diffusion_amount : ℚ) (threshold : ℕ)
    (st : FSState) (y x : ℕ) : ℚ :=
  (fsEffective width st y x - (fsNewValue width threshold st y x : ℚ)) * diffusion_amount

/-- One iteration of the dithering loop body (src/src/main.rs lines 239-257):
binarize the pixel at `(x, y)` and distribute the scaled error to the
east, southwest, south and southeast neighbours, each guarded by the
bounds checks of the source. -/
def fsStep (width height : ℕ) (diffusion_amount : ℚ) (threshold : ℕ)
    (st : FSState) (y x : ℕ) : FSState :=
  let new_value := fsNewValue width threshold st y x
  let error := fsError width diffusion_amount threshold st y x
  let result := st.result.set (y * width + x) new_value
  let eb1 := if x + 1 < width then ebAdd st.eb y (x + 1) (error * 7 / 16) else st.eb
  let eb2 :=
    if y + 1 < height then
      let ebA := if 0 < x then ebAdd eb1 (y + 1) (x - 1) (error * 3 / 16) else eb1
      let ebB := ebAdd ebA (y + 1) x (error * 5 / 16)
      if x + 1 < width then ebAdd ebB (y + 1) (x + 1) (error * 1 / 16) else ebB
    else eb1
  ⟨result, eb2⟩

/-- The inner `for x in 0..width` loop of the dithering pass, stopped after
`x` iterations of row `y`. -/
def fsRowAt (width height : ℕ) (diffusion_amount : ℚ) (threshold : ℕ)
    (y : ℕ) (st : FSState) (x : ℕ) : FSState :=
  (List.range x).foldl (fun s xi => fsStep width height diffusion_amount threshold s y xi) st

/-- The full inner `for x in 0..width` loop over row `y`. -/
def fsRow (width height : ℕ) (diffusion_amount : ℚ) (threshold : ℕ)
    (y : ℕ) (st : FSState) : FSState :=
  fsRowAt width height diffusion_amount threshold y st width

/-- The outer `for y in 0..height` loop (src/src/main.rs lines 237-259). -/
def fsLoop (width height : ℕ) (diffusion_amount : ℚ) (threshold : ℕ)
    (st : FSState) : FSState :=
  (List.range height).foldl
    (fun s yi => fsRow width height diffusion_amount threshold yi s) st

/-- The initial loop state (src/src/main.rs lines 234-235): `result` is a
clone of the input buffer and the error buffer is all zeros. -/
def fsInit (img : Image) : FSState :=
  ⟨img.data, List.replicate img.height (List.replicate img.width 0)⟩

/-- `apply_floyd_steinberg_dithering` (src/src/main.rs lines 228-262). -/
def apply_floyd_steinberg_dithering (img : Image) (diffusion_amount : ℚ)
    (threshold : ℕ) : Image :=
  { width := img.width, height := img.height,
    data := (fsLoop img.width img.height diffusion_amount threshold (fsInit img)).result }

/-- The loop state just before the pixel `(x, y)` is processed: all rows
before `y` fully processed, then the first `x` cells of row `y`. -/
def fsStateAt (img : Image) (diffusion_amount : ℚ) (threshold : ℕ)
    (y x : ℕ) : FSState :=
  fsRowAt img.width img.height diffusion_amount threshold y
    ((List.range y).foldl
      (fun s yi => fsRow img.width img.height diffusion_amount threshold yi s)
      (fsInit img)) x

/-- The Floyd–Steinberg error-diffusion kernel as the spec states it:
the contribution that processing pixel `(x, y)` with local error `e` adds to
the error-buffer cell `(x', y')` — 7/16 east, 3/16 southwest, 5/16 south,
1/16 southeast, with each share dropped when its target is out of bounds. -/
def fsKernel (width height y x : ℕ) (e : ℚ) (y' x' : ℕ) : ℚ :=
  (if y' = y ∧ x' = x + 1 ∧ x + 1 < width then e * 7 / 16 else 0)
  + (if y' = y + 1 ∧ x' = x - 1 ∧ 0 < x ∧ y + 1 < height then e * 3 / 16 else 0)
  + (if y' = y + 1 ∧ x' = x ∧ y + 1 < height then e * 5 / 16 else 0)
  + (if y' = y + 1 ∧ x' = x + 1 ∧ x + 1 < width ∧ y + 1 < height then e * 1 / 16 else 0)

/-- Shape of the error buffer: `height` rows of `width` cells each
(`vec![vec![0.0; width]; height]` and all its in-place updates). -/
def ebShape (width height : ℕ) (eb : List (List ℚ)) : Prop :=
  eb.length = height ∧ ∀ i, i < height → (eb.getD i []).length = width

/-- Numeric-argument handling in `main` (src/src/main.rs lines 69-73):
`matches.get_one("contrast").unwrap().parse().unwrap_or(1.3)`.
The argument is the result of `str::parse` (`none` = parse failure). -/
def contrast_from_arg (parsed : Option ℚ) : ℚ := parsed.getD (13/10)

/-- Diffusion-argument handling (src/src/main.rs lines 75-79):
`parse().unwrap_or(0.8)`. -/
def diffusion_from_arg (parsed : Option ℚ) : ℚ := parsed.getD (4/5)

/-- Gamma-argument handling (src/src/main.rs lines 80-84):
`parse().unwrap_or(2.2)`. -/
def gamma_from_arg (parsed : Option ℚ) : ℚ := parsed.getD (11/5)

/-- Threshold-argument handling (src/src/main.rs lines 85-89):
`parse().unwrap_or(128)`. -/
def threshold_from_arg (parsed : Option ℕ) : ℕ := parsed.getD 128

/-- Observable outcome of `main` (exit code of the process and the message
printed to the standard error stream). -/
structure MainOutcome where
  exitCode : ℕ
  errOutput : Option String
deriving DecidableEq

/-- The `match` at the end of `main` (src/src/main.rs lines 102-121): on
`Ok` print the success message and return; on `Err(e)` print
`"Error processing image: {e}"` to the standard error stream and return.
Both arms fall off the end of `fn main()`, so the process exit status is 0
in both cases. -/
def main_outcome (r : Except String Unit) : MainOutcome :=
  match r with
  | .ok _ => ⟨0, none⟩
  | .error e => ⟨0, some ("Error processing image: " ++ e)⟩

/-! ## List helper lemmas -/

theorem getD_set_self {α : Type} (v d : α) (l : List α) (i : ℕ) (h : i < l.length) :
    (l.set i v).getD i d = v := by
  rw [List.getD_eq_getElem _ _ (by simpa using h)]
  exact List.getElem_set_self (by simpa using h)

theorem getD_set_ne {α : Type} (v d : α) (l : List α) (i j : ℕ) (h : i ≠ j) :
    (l.set i v).getD j d = l.getD j d := by
  by_cases hj : j < l.length
  · rw [List.getD_eq_getElem _ _ (by simpa using hj), List.getD_eq_getElem _ _ hj]
    exact List.getElem_set_ne h _
  · rw [List.getD_eq_default _ _ (by simp; omega), List.getD_eq_default _ _ (by omega)]

theorem getD_set_le {α : Type} (v d : α) (l : List α) (i j : ℕ) (h : l.length ≤ i) :
    (l.set i v).getD j d = l.getD j d := by
  rw [List.set_eq_of_length_le h]

/-- Invariant preservation along a fold over `List.range n`. -/
theorem foldl_range_inv {σ : Type} (f : σ → ℕ → σ) (P : ℕ → σ → Prop) :
    ∀ (n : ℕ) (s : σ), P 0 s → (∀ k t, k < n → P k t → P (k + 1) (f t k)) →
      P n ((List.range n).foldl f s) := by
  intro n
  induction n with
  | zero => intro s h0 _; simpa using h0
  | succ m ih =>
    intro s h0 hstep
    rw [List.range_succ, List.foldl_append]
    simp only [List.foldl_cons, List.foldl_nil]
    exact hstep m _ (Nat.lt_succ_self m)
      (ih s h0 (fun k t hk hP => hstep k t (Nat.lt_succ_of_lt hk) hP))

/-- Property preservation along any fold. -/
theorem foldl_preserve {σ α : Type} (f : σ → α → σ) (P : σ → Prop)
    (hf : ∀ s a, P s → P (f s a)) :
    ∀ (l : List α) (s : σ), P s → P (l.foldl f s) := by
  intro l
  induction l with
  | nil => intro s h; simpa using h
  | cons a t ih => intro s h; exact ih (f s a) (hf s a h)

/-! ## Error-buffer lemmas -/

theorem ebGet_ebAdd (width height : ℕ) (eb : List (List ℚ))
    (hsh : ebShape width height eb) (y x : ℕ) (hy : y < height) (hx : x < width)
    (v : ℚ) (y' x' : ℕ) :
    ebGet (ebAdd eb y x v) y' x' =
      ebGet eb y' x' + (if y' = y ∧ x' = x then v else 0) := by
  obtain ⟨hlen, hrow⟩ := hsh
  unfold ebAdd ebGet
  by_cases hy' : y' = y
  · subst hy'
    rw [getD_set_self _ _ _ _ (by rw [hlen]; exact hy)]
    by_cases hx' : x' = x
    · subst hx'
      rw [getD_set_self _ _ _ _ (by rw [hrow y' hy]; exact hx)]
      simp [ebGet]
    · rw [getD_set_ne _ _ _ _ _ (fun h => hx' h.symm)]
      simp [hx']
  · rw [getD_set_ne _ _ _ _ _ (fun h => hy' h.symm)]
    simp [hy']

theorem ebShape_ebAdd (width height : ℕ) (eb : List (List ℚ))
    (hsh : ebShape width height eb) (y x : ℕ) (v : ℚ) :
    ebShape width height (ebAdd eb y x v) := by
  obtain ⟨hlen, hrow⟩ := hsh
  refine ⟨by simpa [ebAdd] using hlen, ?_⟩
  intro i hi
  unfold ebAdd
  by_cases hiy : i = y
  · subst hiy
    rw [getD_set_self _ _ _ _ (by rw [hlen]; exact hi)]
    rw [List.length_set]
    exact hrow i hi
  · rw [getD_set_ne _ _ _ _ _ (fun h => hiy h.symm)]
    exact hrow i hi

theorem ebGet_ebAdd_zero (eb : List (List ℚ)) (y x : ℕ) (y' x' : ℕ) :
    ebGet (ebAdd eb y x 0) y' x' = ebGet eb y' x' := by
  unfold ebAdd ebGet
  by_cases hy' : y' = y
  · subst hy'
    by_cases hylen : y' < eb.length
    · rw [getD_set_self _ _ _ _ hylen]
      by_cases hx' : x' = x
      · subst hx'
        by_cases hxlen : x' < (eb.getD y' []).length
        · rw [getD_set_self _ _ _ _ hxlen]; simp [ebGet]
        · rw [getD_set_le _ _ _ _ _ (by omega)]
      · rw [getD_set_ne _ _ _ _ _ (fun h => hx' h.symm)]
    · rw [getD_set_le _ _ _ _ _ (by omega)]
  · rw [getD_set_ne _ _ _ _ _ (fun h => hy' h.symm)]

theorem ebShape_fsStep (width height : ℕ) (d : ℚ) (t : ℕ) (st : FSState) (y x : ℕ)
    (hsh : ebShape width height st.eb) :
    ebShape width height (fsStep width height d t st y x).eb := by
  simp only [fsStep]
  split_ifs <;> (repeat' first | exact hsh | apply ebShape_ebAdd)

theorem ebShape_fsInit (img : Image) :
    ebShape img.width img.height (fsInit img).eb := by
  constructor
  · simp [fsInit]
  · intro i hi
    have hrow : (fsInit img).eb.getD i [] = List.replicate img.width (0:ℚ) := by
      show (List.replicate img.height (List.replicate img.width (0:ℚ))).getD i [] = _
      rw [List.getD_eq_getElem _ _ (by simpa using hi)]
      exact List.getElem_replicate ..
    rw [hrow, List.length_replicate]

theorem ebShape_fsStateAt (img : Image) (d : ℚ) (t : ℕ) (y x : ℕ) :
    ebShape img.width img.height (fsStateAt img d t y x).eb := by
  have houter : ebShape img.width img.height
      ((List.range y).foldl
        (fun s yi => fsRow img.width img.height d t yi s) (fsInit img)).eb := by
    refine foldl_preserve _ (fun st : FSState => ebShape img.width img.height st.eb) ?_ _ _
      (ebShape_fsInit img)
    intro s a h
    unfold fsRow fsRowAt
    exact foldl_preserve _ (fun st : FSState => ebShape img.width img.height st.eb)
      (fun s a h => ebShape_fsStep _ _ _ _ _ _ _ h) _ _ h
  unfold fsStateAt fsRowAt
  exact foldl_preserve _ (fun st : FSState => ebShape img.width img.height st.eb)
    (fun s a h => ebShape_fsStep _ _ _ _ _ _ _ h) _ _ houter

/-! ## Result-buffer invariant of the dithering sweep -/

/-- After the first `n` cells (raster order) have been processed: the result
buffer keeps its length, cells from `n` on still hold the original input
samples, and already-processed cells are binarized. -/
def ResultInv (a : List ℕ) (n : ℕ) (st : FSState) : Prop :=
  st.result.length = a.length ∧
  (∀ j, n ≤ j → st.result.getD j 0 = a.getD j 0) ∧
  (∀ j, j < n → j < a.length → st.result.getD j 0 = 0 ∨ st.result.getD j 0 = 255)

theorem fsStep_result (width height : ℕ) (d : ℚ) (t : ℕ) (st : FSState) (y x : ℕ) :
    (fsStep width height d t st y x).result =
      st.result.set (y * width + x) (fsNewValue width t st y x) := rfl

theorem ResultInv_fsStep (a : List ℕ) (width height : ℕ) (d : ℚ) (t : ℕ)
    (st : FSState) (y x : ℕ) (hinv : ResultInv a (y * width + x) st) :
    ResultInv a (y * width + x + 1) (fsStep width height d t st y x) := by
  obtain ⟨hlen, hge, hlt⟩ := hinv
  refine ⟨?_, ?_, ?_⟩
  · rw [fsStep_result, List.length_set]; exact hlen
  · intro j hj
    rw [fsStep_result, getD_set_ne _ _ _ _ _ (by omega)]
    exact hge j (by omega)
  · intro j hj hja
    rcases Nat.lt_or_ge j (y * width + x) with hj' | hj'
    · rw [fsStep_result, getD_set_ne _ _ _ _ _ (by omega)]
      exact hlt j hj' hja
    · have hjeq : j = y * width + x := by omega
      subst hjeq
      rw [fsStep_result, getD_set_self _ _ _ _ (by rw [hlen]; exact hja)]
      unfold fsNewValue
      split
      · exact Or.inl rfl
      · exact Or.inr rfl

theorem ResultInv_fsRowAt (a : List ℕ) (width height : ℕ) (d : ℚ) (t : ℕ)
    (y : ℕ) (st : FSState) (x : ℕ) (hinv : ResultInv a (y * width) st) :
    ResultInv a (y * width + x) (fsRowAt width height d t y st x) := by
  unfold fsRowAt
  refine foldl_range_inv _ (fun k s => ResultInv a (y * width + k) s) x st
    (by simpa using hinv) ?_
  intro k s _ hP
  have hstep := ResultInv_fsStep a width height d t s y k hP
  have heq : y * width + (k + 1) = y * width + k + 1 := by omega
  rw [heq]
  exact hstep

theorem ResultInv_fsLoop (a : List ℕ) (width height : ℕ) (d : ℚ) (t : ℕ)
    (st : FSState) (hinv : ResultInv a 0 st) :
    ResultInv a (height * width) (fsLoop width height d t st) := by
  unfold fsLoop
  refine foldl_range_inv _ (fun k s => ResultInv a (k * width) s) height st
    (by simpa using hinv) ?_
  intro k s _ hP
  have hrow := ResultInv_fsRowAt a width height d t k s width hP
  have heq : (k + 1) * width = k * width + width := by ring
  rw [heq]
  exact hrow

theorem ResultInv_fsInit (img : Image) : ResultInv img.data 0 (fsInit img) :=
  ⟨rfl, fun _ _ => rfl, fun j hj _ => absurd hj (by omega)⟩

theorem ResultInv_fsStateAt (img : Image) (d : ℚ) (t : ℕ) (y x : ℕ) :
    ResultInv img.data (y * img.width + x) (fsStateAt img d t y x) := by
  have houter : ResultInv img.data (y * img.width)
      ((List.range y).foldl
        (fun s yi => fsRow img.width img.height d t yi s) (fsInit img)) := by
    refine foldl_range_inv _ (fun k s => ResultInv img.data (k * img.width) s) y _
      (by simpa using ResultInv_fsInit img) ?_
    intro k s _ hP
    have hrow := ResultInv_fsRowAt img.data img.width img.height d t k s img.width hP
    have heq : (k + 1) * img.width = k * img.width + img.width := by ring
    rw [heq]
    exact hrow
  exact ResultInv_fsRowAt img.data img.width img.height d t y _ x houter

/-- C2: in dithering mode, the effective value binarized at `(x, y)` is the
original input sample at `(x, y)` plus the accumulated error-buffer entry:
the raster sweep reads each `result` position before any write to it, so the
value read from the output buffer (initialized as a copy of the input) is
still the original input sample, never a previously-written output sample. -/
theorem fsd_effective_reads_original_input (img : Image) (d : ℚ) (t : ℕ) (y x : ℕ) :
    fsEffective img.width (fsStateAt img d t y x) y x =
      (img.data.getD (y * img.width + x) 0 : ℚ) +
        ebGet (fsStateAt img d t y x).eb y x := by
  obtain ⟨_, hge, _⟩ := ResultInv_fsStateAt img d t y x
  unfold fsEffective
  rw [hge (y * img.width + x) (le_refl _)]

/-- C3: for every input buffer and all parameters, the buffer produced by
the Floyd–Steinberg dithering stage holds only the values 0 and 255. -/
theorem fsd_output_binary (img : Image) (d : ℚ) (t : ℕ) (hwf : img.wf)
    (x y : ℕ) (hx : x < img.width) (hy : y < img.height) :
    (apply_floyd_steinberg_dithering img d t).getPixel x y = 0 ∨
      (apply_floyd_steinberg_dithering img d t).getPixel x y = 255 := by
  obtain ⟨hlen, _⟩ := hwf
  obtain ⟨_, _, hbin⟩ :=
    ResultInv_fsLoop img.data img.width img.height d t (fsInit img)
      (ResultInv_fsInit img)
  have hidx : y * img.width + x < img.height * img.width := by
    calc y * img.width + x < y * img.width + img.width := by omega
      _ = (y + 1) * img.width := by ring
      _ ≤ img.height * img.width := Nat.mul_le_mul_right _ (by omega)
  have hidx2 : y * img.width + x < img.data.length := by
    rw [hlen, Nat.mul_comm img.width img.height]
    exact hidx
  exact hbin (y * img.width + x) hidx hidx2

/-- C3 witness: a concrete 2×2 buffer. -/
theorem fsd_output_binary_witness :
    (apply_floyd_steinberg_dithering ⟨2, 2, [100, 150, 50, 200]⟩ (4/5) 128).getPixel 0 0 = 0 ∨
      (apply_floyd_steinberg_dithering ⟨2, 2, [100, 150, 50, 200]⟩ (4/5) 128).getPixel 0 0 = 255 :=
  fsd_output_binary ⟨2, 2, [100, 150, 50, 200]⟩ (4/5) 128 (by decide) 0 0
    (by decide) (by decide)

/-! ## Zero diffusion degenerates to simple thresholding (C7) -/

/-- Invariant of the dithering sweep at `diffusion_amount = 0`: processed
cells hold the simple-threshold value of the original sample and the error
buffer is still identically zero. -/
def ThreshInv (a : List ℕ) (t : ℕ) (n : ℕ) (st : FSState) : Prop :=
  st.result.length = a.length ∧
  (∀ j, n ≤ j → st.result.getD j 0 = a.getD j 0) ∧
  (∀ j, j < n → j < a.length →
    st.result.getD j 0 = (if t ≤ a.getD j 0 then 255 else 0)) ∧
  (∀ y x, ebGet st.eb y x = 0)

theorem getD_replicate_replicate_zero (n m i j : ℕ) :
    ((List.replicate n (List.replicate m (0:ℚ))).getD i []).getD j 0 = 0 := by
  by_cases hi : i < n
  · have hrow : (List.replicate n (List.replicate m (0:ℚ))).getD i [] =
        List.replicate m 0 := by
      rw [List.getD_eq_getElem _ _ (by simpa using hi)]
      exact List.getElem_replicate ..
    rw [hrow]
    by_cases hj : j < m
    · rw [List.getD_eq_getElem _ _ (by simpa using hj)]
      exact List.getElem_replicate ..
    · exact List.getD_eq_default _ _ (by simpa using Nat.le_of_not_lt hj)
  · have hrow : (List.replicate n (List.replicate m (0:ℚ))).getD i [] = [] :=
      List.getD_eq_default _ _ (by simpa using Nat.le_of_not_lt hi)
    rw [hrow]
    simp

theorem ebGet_fsInit (img : Image) (y x : ℕ) : ebGet (fsInit img).eb y x = 0 := by
  show ((List.replicate img.height (List.replicate img.width (0:ℚ))).getD y []).getD x 0 = 0
  exact getD_replicate_replicate_zero ..

theorem ebGet_fsStep_zero (width height : ℕ) (t : ℕ) (st : FSState) (y x : ℕ)
    (herr : fsError width 0 t st y x = 0)
    (heb : ∀ y' x', ebGet st.eb y' x' = 0) :
    ∀ y' x', ebGet (fsStep width height 0 t st y x).eb y' x' = 0 := by
  intro y' x'
  have h7 : fsError width 0 t st y x * 7 / 16 = 0 := by rw [herr]; ring
  have h3 : fsError width 0 t st y x * 3 / 16 = 0 := by rw [herr]; ring
  have h5 : fsError width 0 t st y x * 5 / 16 = 0 := by rw [herr]; ring
  have h1 : fsError width 0 t st y x * 1 / 16 = 0 := by rw [herr]; ring
  simp only [fsStep, h7, h3, h5, h1]
  split_ifs <;> (try simp only [ebGet_ebAdd_zero]) <;> exact heb y' x'

theorem ThreshInv_fsStep (a : List ℕ) (width height : ℕ) (t : ℕ)
    (st : FSState) (y x : ℕ) (hinv : ThreshInv a t (y * width + x) st) :
    ThreshInv a t (y * width + x + 1) (fsStep width height 0 t st y x) := by
  obtain ⟨hlen, hge, hlt, heb⟩ := hinv
  have heff : fsEffective width st y x = (a.getD (y * width + x) 0 : ℚ) := by
    unfold fsEffective
    rw [heb y x, hge _ (le_refl _), add_zero]
  have hnv : fsNewValue width t st y x =
      (if t ≤ a.getD (y * width + x) 0 then 255 else 0) := by
    unfold fsNewValue
    rw [heff]
    rcases Nat.lt_or_ge (a.getD (y * width + x) 0) t with hc | hc
    · rw [if_pos (by exact_mod_cast hc), if_neg (by omega)]
    · rw [if_neg (not_lt.mpr (by exact_mod_cast hc)), if_pos hc]
  have herr : fsError width 0 t st y x = 0 := by unfold fsError; ring
  refine ⟨?_, ?_, ?_, ebGet_fsStep_zero width height t st y x herr heb⟩
  · rw [fsStep_result, List.length_set]; exact hlen
  · intro j hj
    rw [fsStep_result, getD_set_ne _ _ _ _ _ (by omega)]
    exact hge j (by omega)
  · intro j hj hja
    rcases Nat.lt_or_ge j (y * width + x) with hj' | hj'
    · rw [fsStep_result, getD_set_ne _ _ _ _ _ (by omega)]
      exact hlt j hj' hja
    · have hjeq : j = y * width + x := by omega
      subst hjeq
      rw [fsStep_result, getD_set_self _ _ _ _ (by rw [hlen]; exact hja)]
      exact hnv

theorem ThreshInv_fsLoop (a : List ℕ) (width height : ℕ) (t : ℕ)
    (st : FSState) (hinv : ThreshInv a t 0 st) :
    ThreshInv a t (height * width) (fsLoop width height 0 t st) := by
  unfold fsLoop
  refine foldl_range_inv _ (fun k s => ThreshInv a t (k * width) s) height st
    (by simpa using hinv) ?_
  intro k s _ hP
  have hrow : ThreshInv a t (k * width + width) (fsRow width height 0 t k s) := by
    unfold fsRow fsRowAt
    refine foldl_range_inv _ (fun j s => ThreshInv a t (k * width + j) s) width s
      (by simpa using hP) ?_
    intro j s2 _ hP2
    have hstep := ThreshInv_fsStep a width height t s2 k j hP2
    have heq : k * width + (j + 1) = k * width + j + 1 := by omega
    rw [heq]
    exact hstep
  have heq : (k + 1) * width = k * width + width := by ring
  rw [heq]
  exact hrow

/-- C7: with `diffusion_amount = 0`, the Floyd–Steinberg dithering stage
produces exactly the same buffer as the simple threshold stage: the error
is computed but multiplied by zero, so it is never effectively propagated. -/
theorem fsd_zero_diffusion_eq_threshold (img : Image) (t : ℕ)
    (hlen : img.data.length = img.width * img.height) :
    apply_floyd_steinberg_dithering img 0 t = apply_simple_threshold img t := by
  have h0 : ThreshInv img.data t 0 (fsInit img) :=
    ⟨rfl, fun _ _ => rfl, fun j hj _ => absurd hj (by omega), ebGet_fsInit img⟩
  obtain ⟨hlen2, _, hproc, _⟩ :=
    ThreshInv_fsLoop img.data img.width img.height t (fsInit img) h0
  unfold apply_floyd_steinberg_dithering apply_simple_threshold
  congr 1
  apply List.ext_getElem
  · rw [hlen2, List.length_map]
  · intro i h1 h2
    have hia : i < img.data.length := by simpa using h2
    have hih : i < img.height * img.width := by
      rw [hlen, Nat.mul_comm img.width img.height] at hia
      exact hia
    have hp := hproc i hih hia
    rw [List.getD_eq_getElem _ _ h1, List.getD_eq_getElem _ _ hia] at hp
    rw [hp, List.getElem_map]

/-- C7 witness: a concrete 2×2 buffer. -/
theorem fsd_zero_diffusion_eq_threshold_witness :
    apply_floyd_steinberg_dithering ⟨2, 2, [100, 150, 50, 200]⟩ 0 128 =
      apply_simple_threshold ⟨2, 2, [100, 150, 50, 200]⟩ 128 :=
  fsd_zero_diffusion_eq_threshold ⟨2, 2, [100, 150, 50, 200]⟩ 128 (by decide)

/-! ## Error-distribution characterization (C1) -/

/-- Processing one pixel changes the error buffer exactly by the
Floyd–Steinberg kernel contributions. -/
theorem fsStep_eb_distribution (width height : ℕ) (d : ℚ) (t : ℕ) (st : FSState)
    (y x : ℕ) (hy : y < height) (hx : x < width)
    (hsh : ebShape width height st.eb) (y' x' : ℕ) :
    ebGet (fsStep width height d t st y x).eb y' x' =
      ebGet st.eb y' x' +
        fsKernel width height y x (fsError width d t st y x) y' x' := by
  have hxm : x - 1 < width := by omega
  by_cases h1 : x + 1 < width
  · by_cases h2 : y + 1 < height
    · by_cases h3 : 0 < x
      · -- interior pixel: all four contributions
        simp only [fsStep, fsKernel, h1, h2, h3, ite_true, and_true, true_and]
        have s1 := ebShape_ebAdd width height st.eb hsh y (x + 1)
          (fsError width d t st y x * 7 / 16)
        have s2 := ebShape_ebAdd width height _ s1 (y + 1) (x - 1)
          (fsError width d t st y x * 3 / 16)
        have s3 := ebShape_ebAdd width height _ s2 (y + 1) x
          (fsError width d t st y x * 5 / 16)
        rw [ebGet_ebAdd width height _ s3 (y + 1) (x + 1) h2 h1 _ y' x',
          ebGet_ebAdd width height _ s2 (y + 1) x h2 hx _ y' x',
          ebGet_ebAdd width height _ s1 (y + 1) (x - 1) h2 hxm _ y' x',
          ebGet_ebAdd width height st.eb hsh y (x + 1) hy h1 _ y' x']
        ring
      · -- first column (x = 0): southwest contribution is skipped
        simp only [fsStep, fsKernel, h1, h2, h3, ite_true, ite_false, and_true,
          true_and, and_false, false_and]
        have s1 := ebShape_ebAdd width height st.eb hsh y (x + 1)
          (fsError width d t st y x * 7 / 16)
        have s2 := ebShape_ebAdd width height _ s1 (y + 1) x
          (fsError width d t st y x * 5 / 16)
        rw [ebGet_ebAdd width height _ s2 (y + 1) (x + 1) h2 h1 _ y' x',
          ebGet_ebAdd width height _ s1 (y + 1) x h2 hx _ y' x',
          ebGet_ebAdd width height st.eb hsh y (x + 1) hy h1 _ y' x']
        ring
    · -- last row: only the east contribution survives
      simp only [fsStep, fsKernel, h1, h2, ite_true, ite_false, and_true,
        true_and, and_false, false_and]
      rw [ebGet_ebAdd width height st.eb hsh y (x + 1) hy h1 _ y' x']
      ring
  · by_cases h2 : y + 1 < height
    · by_cases h3 : 0 < x
      · -- last column, interior row: southwest and south only
        simp only [fsStep, fsKernel, h1, h2, h3, ite_true, ite_false, and_true,
          true_and, and_false, false_and]
        have s1 := ebShape_ebAdd width height st.eb hsh (y + 1) (x - 1)
          (fsError width d t st y x * 3 / 16)
        rw [ebGet_ebAdd width height _ s1 (y + 1) x h2 hx _ y' x',
          ebGet_ebAdd width height st.eb hsh (y + 1) (x - 1) h2 hxm _ y' x']
        ring
      · -- single-column, interior row: south only
        simp only [fsStep, fsKernel, h1, h2, h3, ite_true, ite_false, and_true,
          true_and, and_false, false_and]
        rw [ebGet_ebAdd width height st.eb hsh (y + 1) x h2 hx _ y' x']
        ring
    · -- bottom-right corner region: every contribution is skipped
      simp only [fsStep, fsKernel, h1, h2, ite_true, ite_false, and_true,
        true_and, and_false, false_and]
      ring

/-- C1: at every pixel `(x, y)` of the raster sweep, the local error
`err = (effective - output) * diffusion_amount` (`fsError`) is distributed
to `(x+1, y)` with weight 7/16, `(x-1, y+1)` with weight 3/16, `(x, y+1)`
with weight 5/16 and `(x+1, y+1)` with weight 1/16, and each share is
skipped entirely (not wrapped, not clamped) when its target lies outside
the `width × height` buffer: the error-buffer delta is exactly `fsKernel`. -/
theorem fsd_error_distribution (img : Image) (d : ℚ) (t : ℕ) (y x : ℕ)
    (hy : y < img.height) (hx : x < img.width) (y' x' : ℕ) :
    ebGet (fsStep img.width img.height d t (fsStateAt img d t y x) y x).eb y' x' =
      ebGet (fsStateAt img d t y x).eb y' x' +
        fsKernel img.width img.height y x
          (fsError img.width d t (fsStateAt img d t y x) y x) y' x' :=
  fsStep_eb_distribution img.width img.height d t (fsStateAt img d t y x) y x
    hy hx (ebShape_fsStateAt img d t y x) y' x'

/-- C1 witness: the top-left pixel of a concrete 2×2 buffer, east target. -/
theorem fsd_error_distribution_witness :
    ebGet (fsStep 2 2 (4/5) 128
        (fsStateAt ⟨2, 2, [100, 150, 50, 200]⟩ (4/5) 128 0 0) 0 0).eb 0 1 =
      ebGet (fsStateAt ⟨2, 2, [100, 150, 50, 200]⟩ (4/5) 128 0 0).eb 0 1 +
        fsKernel 2 2 0 0
          (fsError 2 (4/5) 128 (fsStateAt ⟨2, 2, [100, 150, 50, 200]⟩ (4/5) 128 0 0) 0 0) 0 1 :=
  fsd_error_distribution ⟨2, 2, [100, 150, 50, 200]⟩ (4/5) 128 0 0
    (by decide) (by decide) 0 1

/-! ## Pointwise stage lemmas -/

theorem raster_index_lt (w h x y len : ℕ) (hx : x < w) (hy : y < h)
    (hlen : len = w * h) : y * w + x < len := by
  have hlt : y * w + x < h * w := by
    calc y * w + x < y * w + w := by omega
      _ = (y + 1) * w := by ring
      _ ≤ h * w := Nat.mul_le_mul_right _ (by omega)
  rw [hlen, Nat.mul_comm w h]
  exact hlt

theorem getPixel_map (img : Image) (f : ℕ → ℕ) (x y : ℕ)
    (hx : x < img.width) (hy : y < img.height)
    (hlen : img.data.length = img.width * img.height) :
    (Image.mk img.width img.height (img.data.map f)).getPixel x y =
      f (img.getPixel x y) := by
  have hidx := raster_index_lt img.width img.height x y img.data.length hx hy hlen
  unfold Image.getPixel
  rw [List.getD_eq_getElem _ _ (by simpa using hidx),
    List.getD_eq_getElem _ _ hidx, List.getElem_map]

/-! ## Lemmas about the binary32 model -/

theorem bitLenAux_zero (fuel : ℕ) : bitLenAux fuel 0 = 0 := by
  cases fuel <;> rfl

theorem bitLenAux_spec : ∀ (fuel n : ℕ), n ≤ fuel → 1 ≤ n →
    2 ^ (bitLenAux fuel n - 1) ≤ n ∧ n < 2 ^ bitLenAux fuel n := by
  intro fuel
  induction fuel with
  | zero => intro n hn h1; omega
  | succ f ih =>
    intro n hn h1
    rw [bitLenAux, if_neg (by omega)]
    rcases Nat.lt_or_ge n 2 with h2 | h2
    · have hone : n = 1 := by omega
      subst hone
      rw [show (1 : ℕ) / 2 = 0 from rfl, bitLenAux_zero]
      norm_num
    · have hrec := ih (n / 2) (by omega) (by omega)
      set L := bitLenAux f (n / 2) with hL
      have hL1 : 1 ≤ L := by
        by_contra hc
        have hL0 : L = 0 := by omega
        rw [hL0] at hrec
        have := hrec.2
        simp at this
        omega
      constructor
      · calc 2 ^ (L + 1 - 1) = 2 ^ (L - 1 + 1) := by congr 1; omega
          _ = 2 ^ (L - 1) * 2 := pow_succ ..
          _ ≤ n / 2 * 2 := Nat.mul_le_mul_right 2 hrec.1
          _ ≤ n := by omega
      · calc n < 2 ^ L * 2 := by have := hrec.2; omega
          _ = 2 ^ (L + 1) := (pow_succ ..).symm

theorem bitLen_spec (n : ℕ) (h : 1 ≤ n) :
    2 ^ (bitLen n - 1) ≤ n ∧ n < 2 ^ bitLen n :=
  bitLenAux_spec n n (le_refl n) h

theorem bitLen_zero : bitLen 0 = 0 := rfl

theorem rne24Core_ge (n k : ℕ) : n / 2 ^ k ≤ rne24Core n k := by
  simp only [rne24Core]
  split <;> omega

theorem rne24Core_le (n k : ℕ) : rne24Core n k ≤ n / 2 ^ k + 1 := by
  simp only [rne24Core]
  split <;> omega

theorem rne24Core_exact (n k : ℕ) (hr : n % 2 ^ k = 0) :
    rne24Core n k = n / 2 ^ k := by
  simp only [rne24Core]
  have hhalf : 0 < 2 ^ (k - 1) := pow_pos (by norm_num) _
  rw [if_neg (by rw [hr]; push_neg; omega)]

theorem rne24_fst_nonneg (m e : ℤ) (hm : 0 ≤ m) : 0 ≤ (rne24 m e).1 := by
  unfold rne24
  simp only
  split
  · exact hm
  · simp only
    rw [if_neg (by omega)]
    exact Int.natCast_nonneg _

theorem rne24_fst_nonpos (m e : ℤ) (hm : m ≤ 0) : (rne24 m e).1 ≤ 0 := by
  unfold rne24
  simp only
  split
  · exact hm
  · simp only
    rename_i hb
    have hm0 : m ≠ 0 := by
      intro h0
      rw [h0] at hb
      simp [bitLen_zero] at hb
    rw [if_pos (by omega)]
    exact neg_nonpos.mpr (Int.natCast_nonneg _)

theorem two_zpow_pos (e : ℤ) : (0 : ℚ) < (2 : ℚ) ^ e := zpow_pos (by norm_num) e

theorem ffVal_nonneg (x : ℤ × ℤ) (h : 0 ≤ x.1) : 0 ≤ ffVal x :=
  mul_nonneg (by exact_mod_cast h) (le_of_lt (two_zpow_pos x.2))

theorem ffVal_nonpos (x : ℤ × ℤ) (h : x.1 ≤ 0) : ffVal x ≤ 0 := by
  calc ffVal x = (x.1 : ℚ) * (2 : ℚ) ^ x.2 := rfl
    _ ≤ 0 * (2 : ℚ) ^ x.2 := by
        apply mul_le_mul_of_nonneg_right _ (le_of_lt (two_zpow_pos x.2))
        exact_mod_cast h
    _ = 0 := by ring

theorem ffVal_neg_exp (m : ℤ) (g : ℕ) : ffVal (m, -(g : ℤ)) = (m : ℚ) / 2 ^ g := by
  simp [ffVal, zpow_neg, zpow_natCast, div_eq_mul_inv]

theorem ffVal_nonneg_exp (m : ℤ) (E : ℕ) : ffVal (m, (E : ℤ)) = ((m * 2 ^ E : ℤ) : ℚ) := by
  simp [ffVal, zpow_natCast]

/-- Passthrough case of `rne24`: at most 24 significand bits. -/
theorem rne24_eq_self (m e : ℤ) (hb : bitLen m.natAbs ≤ 24) : rne24 m e = (m, e) := by
  simp only [rne24]
  rw [if_pos hb]

/-- Rounding case of `rne24` for a positive significand. -/
theorem rne24_eq_round (m e : ℤ) (hm : 0 < m) (hb : ¬ bitLen m.natAbs ≤ 24) :
    rne24 m e = ((rne24Core m.natAbs (bitLen m.natAbs - 24) : ℤ),
      e + ((bitLen m.natAbs - 24 : ℕ) : ℤ)) := by
  simp only [rne24]
  rw [if_neg hb, if_neg (by omega)]

/-- Rounding a value that is at least 255 cannot bring it below 255
(255 is exactly representable in 24 bits). -/
theorem rne24_val_ge_255 (m e : ℤ) (h : 255 ≤ ffVal (m, e)) :
    255 ≤ ffVal (rne24 m e) := by
  have hm : 0 < m := by
    by_contra hc
    push_neg at hc
    have := ffVal_nonpos (m, e) hc
    linarith
  by_cases hb : bitLen m.natAbs ≤ 24
  · rw [rne24_eq_self m e hb]
    exact h
  · rw [rne24_eq_round m e hm hb]
    set n := m.natAbs with hn
    set k := bitLen n - 24 with hk
    have hnm : (n : ℤ) = m := Int.natAbs_of_nonneg hm.le
    have hn1 : 1 ≤ n := by omega
    obtain ⟨hlow, hhigh⟩ := bitLen_spec n hn1
    have hb25 : 25 ≤ bitLen n := by omega
    have hq := rne24Core_ge n k
    rcases le_or_lt 0 (e + (k : ℤ)) with hek | hek
    · have h23 : 2 ^ 23 ≤ n / 2 ^ k := by
        apply (Nat.le_div_iff_mul_le (pow_pos (by norm_num) k)).mpr
        calc 2 ^ 23 * 2 ^ k = 2 ^ (23 + k) := by rw [pow_add]
          _ = 2 ^ (bitLen n - 1) := by congr 1; omega
          _ ≤ n := hlow
      have hcore : (255 : ℕ) ≤ rne24Core n k := le_trans (le_trans (by norm_num) h23) hq
      have h2E : (1 : ℚ) ≤ (2 : ℚ) ^ (e + (k : ℤ)) := by
        have hEe : e + (k : ℤ) = ((e + (k : ℤ)).toNat : ℤ) := by omega
        rw [hEe, zpow_natCast]
        exact_mod_cast Nat.one_le_two_pow
      show (255 : ℚ) ≤ ((rne24Core n k : ℤ) : ℚ) * (2 : ℚ) ^ (e + (k : ℤ))
      have hc255 : (255 : ℚ) ≤ ((rne24Core n k : ℤ) : ℚ) := by exact_mod_cast hcore
      nlinarith [hc255, h2E]
    · set g := (-(e + (k : ℤ))).toNat with hg
      have hge : e + (k : ℤ) = -(g : ℤ) := by omega
      have he : e = -((g + k : ℕ) : ℤ) := by push_cast; omega
      rw [he, ffVal_neg_exp, le_div_iff₀ (by positivity)] at h
      have hnge : 255 * 2 ^ (g + k) ≤ n := by
        have hint : (255 * 2 ^ (g + k) : ℤ) ≤ m := by exact_mod_cast h
        zify
        omega
      have hqge : 255 * 2 ^ g ≤ n / 2 ^ k := by
        apply (Nat.le_div_iff_mul_le (pow_pos (by norm_num) k)).mpr
        calc 255 * 2 ^ g * 2 ^ k = 255 * 2 ^ (g + k) := by rw [pow_add]; ring
          _ ≤ n := hnge
      have hcore : 255 * 2 ^ g ≤ rne24Core n k := le_trans hqge hq
      rw [hge, ffVal_neg_exp, le_div_iff₀ (by positivity)]
      exact_mod_cast hcore

/-- Rounding a nonnegative value that is at most 255 cannot push it above
255 (255 is exactly representable in 24 bits). -/
theorem rne24_val_le_255 (m e : ℤ) (hm : 0 ≤ m) (h : ffVal (m, e) ≤ 255) :
    ffVal (rne24 m e) ≤ 255 := by
  by_cases hb : bitLen m.natAbs ≤ 24
  · rw [rne24_eq_self m e hb]
    exact h
  · have hmpos : 0 < m := by
      rcases eq_or_lt_of_le hm with h0 | h0
      · exfalso
        rw [← h0] at hb
        simp [bitLen_zero] at hb
      · exact h0
    rw [rne24_eq_round m e hmpos hb]
    set n := m.natAbs with hn
    set k := bitLen n - 24 with hk
    have hnm : (n : ℤ) = m := Int.natAbs_of_nonneg hm
    have hn1 : 1 ≤ n := by omega
    obtain ⟨hlow, hhigh⟩ := bitLen_spec n hn1
    have hb25 : 25 ≤ bitLen n := by omega
    -- the exponent must be negative, else the value already exceeds 255
    have hek : e + (k : ℤ) < 0 := by
      by_contra hc
      push_neg at hc
      have h2E : (1 : ℚ) ≤ (2 : ℚ) ^ (e + (k : ℤ)) := by
        have hEe : e + (k : ℤ) = ((e + (k : ℤ)).toNat : ℤ) := by omega
        rw [hEe, zpow_natCast]
        exact_mod_cast Nat.one_le_two_pow
      have hlowq : ((2 ^ (23 + k) : ℕ) : ℚ) ≤ (m : ℚ) := by
        have h1 : (2 ^ (23 + k) : ℕ) ≤ n := by
          calc (2 ^ (23 + k) : ℕ) = 2 ^ (bitLen n - 1) := by congr 1; omega
            _ ≤ n := hlow
        have h2 : ((2 ^ (23 + k) : ℕ) : ℤ) ≤ (n : ℤ) := by exact_mod_cast h1
        rw [hnm] at h2
        exact_mod_cast h2
      have hval : ((2 ^ (23 + k) : ℕ) : ℚ) * (2 : ℚ) ^ e ≤ ffVal (m, e) := by
        unfold ffVal
        exact mul_le_mul_of_nonneg_right hlowq (le_of_lt (two_zpow_pos e))
      have hpow : ((2 ^ (23 + k) : ℕ) : ℚ) * (2 : ℚ) ^ e =
          8388608 * (2 : ℚ) ^ (e + (k : ℤ)) := by
        push_cast
        rw [pow_add, zpow_add₀ (by norm_num : (2 : ℚ) ≠ 0), zpow_natCast]
        norm_num
        ring
      rw [hpow] at hval
      nlinarith [hval, h2E, h]
    set g := (-(e + (k : ℤ))).toNat with hg
    have hge : e + (k : ℤ) = -(g : ℤ) := by omega
    have he : e = -((g + k : ℕ) : ℤ) := by push_cast; omega
    rw [he, ffVal_neg_exp, div_le_iff₀ (by positivity)] at h
    have hnle : n ≤ 255 * 2 ^ (g + k) := by
      have hint : m ≤ (255 * 2 ^ (g + k) : ℤ) := by exact_mod_cast h
      zify
      omega
    have hqle : n / 2 ^ k ≤ 255 * 2 ^ g := by
      have h1 : n / 2 ^ k ≤ 255 * 2 ^ (g + k) / 2 ^ k := Nat.div_le_div_right hnle
      rwa [pow_add, ← mul_assoc, Nat.mul_div_cancel _ (pow_pos (by norm_num) k)] at h1
    have hcore : rne24Core n k ≤ 255 * 2 ^ g := by
      rcases lt_or_eq_of_le hqle with hlt | heq
      · have := rne24Core_le n k
        omega
      · have hr0 : n % 2 ^ k = 0 := by
          have hdm : 2 ^ k * (n / 2 ^ k) + n % 2 ^ k = n := Nat.div_add_mod n (2 ^ k)
          have h1 : n ≤ (n / 2 ^ k) * 2 ^ k := by
            calc n ≤ 255 * 2 ^ (g + k) := hnle
              _ = 255 * 2 ^ g * 2 ^ k := by rw [pow_add]; ring
              _ = n / 2 ^ k * 2 ^ k := by rw [heq]
          rw [mul_comm] at h1
          omega
        rw [rne24Core_exact n k hr0, heq]
    rw [hge, ffVal_neg_exp, div_le_iff₀ (by positivity)]
    exact_mod_cast hcore

/-- `ffToU8` agrees with the saturating truncation of the exact value. -/
theorem ffToU8_eq (x : ℤ × ℤ) : ffToU8 x = f32ToU8 (ffVal x) := by
  obtain ⟨m, e⟩ := x
  by_cases hm : m ≤ 0
  · have hv : ffVal (m, e) ≤ 0 := ffVal_nonpos _ hm
    have hf : ⌊ffVal (m, e)⌋ ≤ 0 := by
      calc ⌊ffVal (m, e)⌋ ≤ ⌊(0 : ℚ)⌋ := Int.floor_le_floor hv
        _ = 0 := Int.floor_zero
    unfold ffToU8 f32ToU8
    rw [if_pos hm, Int.toNat_of_nonpos hf]
    simp
  · push_neg at hm
    have hmn : ((m.toNat : ℤ)) = m := Int.toNat_of_nonneg hm.le
    unfold ffToU8 f32ToU8
    rw [if_neg (by omega)]
    by_cases he : 0 ≤ e
    · rw [if_pos he]
      have hv : ffVal (m, e) = ((m.toNat * 2 ^ e.toNat : ℕ) : ℚ) := by
        conv_lhs => rw [show e = (e.toNat : ℤ) from by omega]
        rw [ffVal_nonneg_exp]
        push_cast
        rw [show ((m.toNat : ℚ)) = (m : ℚ) from by exact_mod_cast hmn]
      rw [hv, Int.floor_natCast, Int.toNat_natCast]
    · rw [if_neg he]
      push_neg at he
      set E := (-e).toNat with hE
      have hv : ffVal (m, e) = ((m.toNat : ℕ) : ℚ) / 2 ^ E := by
        conv_lhs => rw [show e = -(E : ℤ) from by omega]
        rw [ffVal_neg_exp]
        congr 1
        exact_mod_cast hmn.symm
      have hfl : ⌊((m.toNat : ℕ) : ℚ) / 2 ^ E⌋ = ((m.toNat / 2 ^ E : ℕ) : ℤ) := by
        rw [Int.floor_eq_iff]
        constructor
        · rw [le_div_iff₀ (by positivity)]
          exact_mod_cast Nat.div_mul_le_self m.toNat (2 ^ E)
        · rw [div_lt_iff₀ (by positivity)]
          have hlt : m.toNat < (m.toNat / 2 ^ E + 1) * 2 ^ E := by
            have hdm : 2 ^ E * (m.toNat / 2 ^ E) + m.toNat % 2 ^ E = m.toNat :=
              Nat.div_add_mod ..
            have hmod : m.toNat % 2 ^ E < 2 ^ E :=
              Nat.mod_lt _ (pow_pos (by norm_num) E)
            calc m.toNat = 2 ^ E * (m.toNat / 2 ^ E) + m.toNat % 2 ^ E := hdm.symm
              _ < 2 ^ E * (m.toNat / 2 ^ E) + 2 ^ E := by omega
              _ = (m.toNat / 2 ^ E + 1) * 2 ^ E := by ring
          exact_mod_cast hlt
      rw [hv, hfl, Int.toNat_natCast]

/-- The comparison `ffGtOne` decides `1 < value`. -/
theorem ffGtOne_iff (x : ℤ × ℤ) : ffGtOne x = true ↔ 1 < ffVal x := by
  obtain ⟨m, e⟩ := x
  unfold ffGtOne
  by_cases he : 0 ≤ e
  · rw [if_pos he]
    have hv : ffVal (m, e) = ((m * 2 ^ e.toNat : ℤ) : ℚ) := by
      conv_lhs => rw [show e = (e.toNat : ℤ) from by omega]
      exact ffVal_nonneg_exp ..
    rw [decide_eq_true_iff, hv]
    constructor <;> intro h <;> exact_mod_cast h
  · rw [if_neg he]
    push_neg at he
    set E := (-e).toNat with hEdef
    have hv : ffVal (m, e) = (m : ℚ) / 2 ^ E := by
      conv_lhs => rw [show e = -(E : ℤ) from by omega]
      exact ffVal_neg_exp ..
    rw [decide_eq_true_iff, hv, lt_div_iff₀ (by positivity), one_mul]
    constructor <;> intro h <;> exact_mod_cast h

/-- The exact value of the binary32 multiplication input `F * 255`. -/
theorem ffVal_mul255 (F : ℤ × ℤ) : ffVal (F.1 * 255, F.2 + 0) = 255 * ffVal F := by
  unfold ffVal
  rw [add_zero]
  push_cast
  ring

theorem ffMul_zero_255 : ffMul (0, 0) ff255 = (0, 0) := by decide

theorem ffMul_one_255 : ffMul (1, 0) ff255 = (255, 0) := by decide

theorem ffToU8_zero : ffToU8 (0, 0) = 0 := by decide

theorem ffToU8_255 : ffToU8 (255, 0) = 255 := by decide

set_option maxRecDepth 1000000 in
/-- C4 counterexample: at contrast 1.0 and sample 50 the Contrast Enhancer
produces 49, while the exact formula
`clamp(((s/255 - 0.5) * c + 0.5) * 255, 0, 255)` truncated gives 50 —
binary32 rounding loses an ulp in `(luminance - 0.5) + 0.5` for samples
below 64, so the claimed exact-arithmetic formula does not describe the
program. -/
theorem enhance_contrast_formula_refuted :
    (enhance_contrast ⟨1, 1, [50]⟩ ffOne).getPixel 0 0 ≠
      f32ToU8 (clampQ 0 255 ((((50 : ℚ) / 255 - 1/2) * 1 + 1/2) * 255)) := by
  have hL : (enhance_contrast ⟨1, 1, [50]⟩ ffOne).getPixel 0 0 = 49 := by decide
  have hR : f32ToU8 (clampQ 0 255 ((((50 : ℚ) / 255 - 1/2) * 1 + 1/2) * 255)) = 50 := by
    have h1 : (((50 : ℚ) / 255 - 1/2) * 1 + 1/2) * 255 = 50 := by norm_num
    rw [h1]
    have h2 : clampQ 0 255 (50 : ℚ) = 50 := by
      unfold clampQ
      rw [min_eq_right (by norm_num), max_eq_right (by norm_num)]
    rw [h2]
    unfold f32ToU8
    rw [show ((50 : ℚ)) = ((50 : ℕ) : ℚ) from by norm_num, Int.floor_natCast,
      Int.toNat_natCast]
    rfl
  rw [hL, hR]
  omega

/-- C4 (amended): for every contrast level `c ≥ 0` (a finite `f32` value),
the Contrast Enhancer maps each sample `s` to
`clamp(F ⊛ 255, 0, 255)` truncated toward zero (the saturating `as u8`
cast), where `F` is the binary32 round-to-nearest-even evaluation of
`(s/255 - 0.5) * c + 0.5` and `⊛` is binary32 multiplication; in
particular for `c > 1` out-of-range results are clamped to 0 or 255,
never wrapped or overflowed. -/
theorem enhance_contrast_spec (img : Image) (c : ℤ × ℤ) (hc : 0 ≤ ffVal c)
    (hlen : img.data.length = img.width * img.height)
    (x y : ℕ) (hx : x < img.width) (hy : y < img.height) :
    (enhance_contrast img c).getPixel x y =
      f32ToU8 (clampQ 0 255 (ffVal (ffMul
        (ffAdd (ffMul (ffSub (rneDiv (img.getPixel x y) 255 0) ffHalf) c) ffHalf)
        ff255))) := by
  unfold enhance_contrast
  rw [getPixel_map img _ x y hx hy hlen]
  show ffToU8 (ffMul (ffClamp01
      (ffAdd (ffMul (ffSub (rneDiv (img.getPixel x y) 255 0) ffHalf) c) ffHalf)) ff255) = _
  set F := ffAdd (ffMul (ffSub (rneDiv (img.getPixel x y) 255 0) ffHalf) c) ffHalf with hF
  unfold ffClamp01
  by_cases h1 : F.1 < 0
  · rw [if_pos h1, ffMul_zero_255, ffToU8_zero]
    have hmul : (ffMul F ff255).1 ≤ 0 := by
      show (rne24 (F.1 * 255) (F.2 + 0)).1 ≤ 0
      exact rne24_fst_nonpos _ _ (mul_nonpos_of_nonpos_of_nonneg h1.le (by norm_num))
    have hv : ffVal (ffMul F ff255) ≤ 0 := ffVal_nonpos _ hmul
    have hcl : clampQ 0 255 (ffVal (ffMul F ff255)) = 0 := by
      unfold clampQ
      rw [min_eq_right (le_trans hv (by norm_num)), max_eq_left hv]
    rw [hcl]
    simp [f32ToU8]
  · rw [if_neg h1]
    push_neg at h1
    by_cases h2 : ffGtOne F = true
    · rw [if_pos h2, ffMul_one_255, ffToU8_255]
      have hgt : 1 < ffVal F := (ffGtOne_iff F).mp h2
      have hv : 255 ≤ ffVal (ffMul F ff255) := by
        show 255 ≤ ffVal (rne24 (F.1 * 255) (F.2 + 0))
        apply rne24_val_ge_255
        rw [ffVal_mul255]
        nlinarith [hgt]
      have hcl : clampQ 0 255 (ffVal (ffMul F ff255)) = 255 := by
        unfold clampQ
        rw [min_eq_left hv, max_eq_right (by norm_num)]
      rw [hcl]
      unfold f32ToU8
      rw [show ((255 : ℚ)) = ((255 : ℕ) : ℚ) from by norm_num, Int.floor_natCast,
        Int.toNat_natCast]
      rfl
    · rw [if_neg h2]
      have hle : ffVal F ≤ 1 := by
        have hnot : ¬ 1 < ffVal F := fun hgt => h2 ((ffGtOne_iff F).mpr hgt)
        linarith [not_lt.mp hnot]
      have hF0 : (0 : ℚ) ≤ ffVal F := ffVal_nonneg F h1
      rw [ffToU8_eq]
      congr 1
      have hm0 : (0 : ℚ) ≤ ffVal (ffMul F ff255) := by
        apply ffVal_nonneg
        show 0 ≤ (rne24 (F.1 * 255) (F.2 + 0)).1
        exact rne24_fst_nonneg _ _ (mul_nonneg h1 (by norm_num))
      have hm255 : ffVal (ffMul F ff255) ≤ 255 := by
        show ffVal (rne24 (F.1 * 255) (F.2 + 0)) ≤ 255
        apply rne24_val_le_255 _ _ (mul_nonneg h1 (by norm_num))
        rw [ffVal_mul255]
        nlinarith [hle, hF0]
      unfold clampQ
      rw [min_eq_right hm255, max_eq_right hm0]

/-- C4 witness: one concrete pixel with contrast `1.5 = (3, -1)`. -/
theorem enhance_contrast_spec_witness :
    (enhance_contrast ⟨1, 1, [200]⟩ (3, -1)).getPixel 0 0 =
      f32ToU8 (clampQ 0 255 (ffVal (ffMul
        (ffAdd (ffMul (ffSub (rneDiv (Image.getPixel ⟨1, 1, [200]⟩ 0 0) 255 0) ffHalf)
          (3, -1)) ffHalf)
        ff255))) :=
  enhance_contrast_spec ⟨1, 1, [200]⟩ (3, -1)
    (by norm_num [ffVal]) (by decide) 0 0 (by decide) (by decide)

set_option maxRecDepth 1000000 in
/-- The full per-sample table of the contrast stage at contrast 1.0:
identity on `{0} ∪ [64, 255]`, one less on `[1, 63]`. -/
theorem contrast_pixel_one_table : ∀ p, p < 256 → contrast_pixel ffOne p =
    (if p = 0 ∨ 64 ≤ p then p else p - 1) := by decide

set_option maxRecDepth 1000000 in
/-- C6 counterexample: at contrast 1.0 the sample 50 maps to 49, not to
itself — the Contrast Enhancer is not the identity mapping. -/
theorem enhance_contrast_identity_refuted :
    (enhance_contrast ⟨1, 1, [50]⟩ ffOne).getPixel 0 0 = 49 ∧
    (enhance_contrast ⟨1, 1, [50]⟩ ffOne).getPixel 0 0 ≠
      Image.getPixel ⟨1, 1, [50]⟩ 0 0 := by
  decide

/-- C6 (amended): with contrast level 1.0 the Contrast Enhancer maps each
sample `s` to `s` for `s = 0` and for `64 ≤ s ≤ 255`, and to `s - 1` for
`1 ≤ s ≤ 63`: the binary32 evaluation of `(s/255 - 0.5) + 0.5` loses one
ulp below 0.25, so the stage is the identity only on `{0} ∪ [64, 255]`. -/
theorem enhance_contrast_one_map (img : Image) (hwf : img.wf) (x y : ℕ)
    (hx : x < img.width) (hy : y < img.height) :
    (enhance_contrast img ffOne).getPixel x y =
      (if img.getPixel x y = 0 ∨ 64 ≤ img.getPixel x y then img.getPixel x y
       else img.getPixel x y - 1) := by
  obtain ⟨hlen, hbound⟩ := hwf
  unfold enhance_contrast
  rw [getPixel_map img _ x y hx hy hlen]
  have hs : img.getPixel x y ≤ 255 := by
    have hidx := raster_index_lt img.width img.height x y img.data.length hx hy hlen
    unfold Image.getPixel
    rw [List.getD_eq_getElem _ _ hidx]
    exact hbound _ (List.getElem_mem ..)
  exact contrast_pixel_one_table (img.getPixel x y) (by omega)

/-- C6 witness: a concrete 2×1 buffer. -/
theorem enhance_contrast_one_map_witness :
    (enhance_contrast ⟨2, 1, [50, 200]⟩ ffOne).getPixel 0 0 =
      (if Image.getPixel ⟨2, 1, [50, 200]⟩ 0 0 = 0 ∨
          64 ≤ Image.getPixel ⟨2, 1, [50, 200]⟩ 0 0
       then Image.getPixel ⟨2, 1, [50, 200]⟩ 0 0
       else Image.getPixel ⟨2, 1, [50, 200]⟩ 0 0 - 1) :=
  enhance_contrast_one_map ⟨2, 1, [50, 200]⟩ (by decide) 0 0 (by decide) (by decide)

/-- C5: the Gamma Mapper builds a 256-entry lookup table once per
invocation, applies it to each pixel by direct indexing, and thereby maps
each sample `s` to `round(255 * powf (s/255) (1/g))` saturated into
[0, 255] (`powf` stands for `f32::powf`). -/
theorem apply_gamma_correction_spec (powf : ℚ → ℚ → ℚ) (img : Image) (g : ℚ)
    (hg : 0 < g) (hwf : img.wf) (x y : ℕ) (hx : x < img.width) (hy : y < img.height) :
    (gamma_lut powf g).length = 256 ∧
    (apply_gamma_correction powf img g).getPixel x y =
      (gamma_lut powf g).getD (img.getPixel x y) 0 ∧
    (apply_gamma_correction powf img g).getPixel x y =
      roundToU8 (255 * powf ((img.getPixel x y : ℚ) / 255) (1 / g)) ∧
    (apply_gamma_correction powf img g).getPixel x y ≤ 255 := by
  obtain ⟨hlen, hbound⟩ := hwf
  have hlut : (gamma_lut powf g).length = 256 := by simp [gamma_lut]
  have hpix : (apply_gamma_correction powf img g).getPixel x y =
      (gamma_lut powf g).getD (img.getPixel x y) 0 := by
    unfold apply_gamma_correction
    exact getPixel_map img _ x y hx hy hlen
  have hs : img.getPixel x y ≤ 255 := by
    have hidx := raster_index_lt img.width img.height x y img.data.length hx hy hlen
    unfold Image.getPixel
    rw [List.getD_eq_getElem _ _ hidx]
    exact hbound _ (List.getElem_mem ..)
  have hentry : (gamma_lut powf g).getD (img.getPixel x y) 0 =
      roundToU8 (powf ((img.getPixel x y : ℚ) / 255) (1 / g) * 255) := by
    unfold gamma_lut
    have h256 : img.getPixel x y < 256 := by omega
    rw [List.getD_eq_getElem _ _ (by simpa using h256), List.getElem_map,
      List.getElem_range]
  refine ⟨hlut, hpix, ?_, ?_⟩
  · rw [hpix, hentry]
    congr 1
    ring
  · rw [hpix, hentry]
    unfold roundToU8
    exact min_le_left ..

/-- C5 witness: a concrete buffer and a concrete stand-in for `powf`. -/
theorem apply_gamma_correction_spec_witness :
    (gamma_lut (fun a b => a + b) 2).length = 256 ∧
    (apply_gamma_correction (fun a b => a + b) ⟨1, 1, [100]⟩ 2).getPixel 0 0 =
      (gamma_lut (fun a b => a + b) 2).getD (Image.getPixel ⟨1, 1, [100]⟩ 0 0) 0 ∧
    (apply_gamma_correction (fun a b => a + b) ⟨1, 1, [100]⟩ 2).getPixel 0 0 =
      roundToU8 (255 * ((Image.getPixel ⟨1, 1, [100]⟩ 0 0 : ℚ) / 255 + 1 / 2)) ∧
    (apply_gamma_correction (fun a b => a + b) ⟨1, 1, [100]⟩ 2).getPixel 0 0 ≤ 255 :=
  apply_gamma_correction_spec (fun a b => a + b) ⟨1, 1, [100]⟩ 2 (by norm_num)
    (by decide) 0 0 (by decide) (by decide)

/-- C9: each of the four stages preserves the width and the height of its
input buffer. -/
theorem stages_preserve_dimensions (img : Image) (powf : ℚ → ℚ → ℚ)
    (g : ℚ) (c : ℤ × ℤ) (t : ℕ) (d : ℚ) :
    (apply_gamma_correction powf img g).width = img.width ∧
    (apply_gamma_correction powf img g).height = img.height ∧
    (enhance_contrast img c).width = img.width ∧
    (enhance_contrast img c).height = img.height ∧
    (apply_simple_threshold img t).width = img.width ∧
    (apply_simple_threshold img t).height = img.height ∧
    (apply_floyd_steinberg_dithering img d t).width = img.width ∧
    (apply_floyd_steinberg_dithering img d t).height = img.height :=
  ⟨rfl, rfl, rfl, rfl, rfl, rfl, rfl, rfl⟩

/-- C8 counterexample: when a numeric argument fails to parse (`none`),
`main` does not surface a failure — it silently continues with the
documented default value of the flag (`unwrap_or`). -/
theorem cli_parse_failure_uses_default :
    contrast_from_arg none = 13/10 ∧ diffusion_from_arg none = 4/5 ∧
    gamma_from_arg none = 11/5 ∧ threshold_from_arg none = 128 :=
  ⟨rfl, rfl, rfl, rfl⟩

/-- C8 amended: a successfully parsed numeric argument is used as given;
a failed parse is silently replaced by the flag's default (contrast 1.3,
diffusion 0.8, gamma 2.2, threshold 128) and processing continues — no
error is surfaced. -/
theorem cli_parse_fallback_spec :
    (∀ q : ℚ, contrast_from_arg (some q) = q) ∧ contrast_from_arg none = 13/10 ∧
    (∀ q : ℚ, diffusion_from_arg (some q) = q) ∧ diffusion_from_arg none = 4/5 ∧
    (∀ q : ℚ, gamma_from_arg (some q) = q) ∧ gamma_from_arg none = 11/5 ∧
    (∀ n : ℕ, threshold_from_arg (some n) = n) ∧ threshold_from_arg none = 128 :=
  ⟨fun _ => rfl, rfl, fun _ => rfl, rfl, fun _ => rfl, rfl, fun _ => rfl, rfl⟩

/-- C10: when `process_image` returns an error, `main` prints the error
description to the standard error stream and returns normally; on every
path the process exit status is 0. -/
theorem main_error_exit_status :
    (∀ e : String, main_outcome (.error e) =
      ⟨0, some ("Error processing image: " ++ e)⟩) ∧
    (∀ r : Except String Unit, (main_outcome r).exitCode = 0) :=
  ⟨fun _ => rfl, fun r => by cases r <;> rfl⟩

end EinkImage
